import Mathlib

/-!
Verification of the go-perun coordination core: the Ethereum channel
backend (canonical ABI encoding, channel identity, signing and
verification), the per-peer message subscription registry, and the
funding protocol.  Definitions are shallow embeddings of the Go source;
byte strings are represented as `List Nat` with each entry a byte value.
-/

namespace Perun

/-- Big-endian encoding of `n` into `w` bytes (the low `8*w` bits of `n`). -/
def beBytes (w n : Nat) : List Nat :=
  (List.range w).map (fun i => n / 256 ^ (w - 1 - i) % 256)

/-- The ABI values that appear in the backend's argument lists
(`abiUint256`, `abiUint256Arr`, `abiUint256ArrArr`, `abiAddress`,
`abiAddressArr`, `abiBytes`, `abiBytes32`, `abiUint64`, `abiBool`).
Numbers, addresses and 32-byte words are represented as `Nat`. -/
inductive AbiVal where
  | uint256 (n : Nat)
  | uint64 (n : Nat)
  | address (a : Nat)
  | bytes32 (b : Nat)
  | boolean (b : Bool)
  | addressArr (as : List Nat)
  | uint256Arr (ns : List Nat)
  | uint256ArrArr (m : List (List Nat))
  | bytes (bs : List Nat)
deriving DecidableEq

/-- Whether an ABI type is dynamic (encoded in the tail, referenced by an
offset word in the head), as in the contract ABI used by `abi.encode`. -/
def AbiVal.isDyn : AbiVal → Bool
  | .uint256 _ | .uint64 _ | .address _ | .bytes32 _ | .boolean _ => false
  | .addressArr _ | .uint256Arr _ | .uint256ArrArr _ | .bytes _ => true

/-- Right-pad a byte string with zeros to a multiple of 32 bytes. -/
def padRight32 (bs : List Nat) : List Nat :=
  bs ++ List.replicate ((32 - bs.length % 32) % 32) 0

/-- Encoding of a `uint256[]`: 32-byte length word, then the 32-byte
element words in order. -/
def encU256Arr (ns : List Nat) : List Nat :=
  beBytes 32 ns.length ++ ns.flatMap (beBytes 32)

/-- Head/tail encoding of the element tuple of a `uint256[][]`: each inner
array is dynamic, so the heads are offset words (relative to the start of
the element area) and the tails are the inner array encodings in order. -/
def encArrArrAux : List (List Nat) → Nat → List Nat × List Nat
  | [], _ => ([], [])
  | ns :: rest, off =>
    let e := encU256Arr ns
    let (h, t) := encArrArrAux rest (off + e.length)
    (beBytes 32 off ++ h, e ++ t)

/-- Encoding of a `uint256[][]`: length word, then offsets and inner
array encodings. -/
def encU256ArrArr (m : List (List Nat)) : List Nat :=
  let (h, t) := encArrArrAux m (32 * m.length)
  beBytes 32 m.length ++ h ++ t

/-- The by-type encoding of one ABI value (`enc` in the contract ABI). -/
def AbiVal.enc : AbiVal → List Nat
  | .uint256 n => beBytes 32 n
  | .uint64 n => beBytes 32 n
  | .address a => beBytes 32 a
  | .bytes32 b => beBytes 32 b
  | .boolean b => beBytes 32 (if b then 1 else 0)
  | .addressArr as => beBytes 32 as.length ++ as.flatMap (beBytes 32)
  | .uint256Arr ns => encU256Arr ns
  | .uint256ArrArr m => encU256ArrArr m
  | .bytes bs => beBytes 32 bs.length ++ padRight32 bs

/-- Head and tail of an argument list, given the offset at which the next
dynamic tail would start.  Static arguments contribute their encoding to
the head; dynamic arguments contribute an offset word to the head and
their encoding to the tail. -/
def abiPackAux : List AbiVal → Nat → List Nat × List Nat
  | [], _ => ([], [])
  | v :: vs, off =>
    if v.isDyn then
      let e := v.enc
      let (h, t) := abiPackAux vs (off + e.length)
      (beBytes 32 off ++ h, e ++ t)
    else
      let (h, t) := abiPackAux vs off
      (v.enc ++ h, t)

/-- `abi.Arguments.Pack`: head area followed by tail area.  Every argument
type used by the backend occupies one 32-byte head word. -/
def abiPack (args : List AbiVal) : List Nat :=
  let (h, t) := abiPackAux args (32 * args.length)
  h ++ t

/-! ## Data model of the channel backend -/

/-- `adjudicator.PerunTypesParams`. -/
structure PerunTypesParams where
  ChallengeDuration : Nat
  Nonce : Nat
  App : Nat
  Participants : List Nat
deriving DecidableEq

/-- `adjudicator.PerunTypesSubAlloc`. -/
structure PerunTypesSubAlloc where
  ID : Nat
  Balances : List Nat
deriving DecidableEq

/-- `adjudicator.PerunTypesAllocation`. -/
structure PerunTypesAllocation where
  Assets : List Nat
  Balances : List (List Nat)
  Locked : List PerunTypesSubAlloc
deriving DecidableEq

/-- `adjudicator.PerunTypesState`. -/
structure PerunTypesState where
  ChannelID : Nat
  Version : Nat
  Outcome : PerunTypesAllocation
  AppData : List Nat
  IsFinal : Bool
deriving DecidableEq

/-- `channel.Params`: challenge duration, nonce, app definition address
(`p.App.Def()`), participant addresses. -/
structure Params where
  challengeDuration : Nat
  nonce : Nat
  app : Nat
  parts : List Nat
deriving DecidableEq

/-- `channel.SubAlloc`. -/
structure SubAlloc where
  id : Nat
  bals : List Nat
deriving DecidableEq

/-- `channel.Allocation`: asset addresses, per-participant per-asset
balances (`OfParts`), locked sub-allocations. -/
structure Allocation where
  assets : List Nat
  ofParts : List (List Nat)
  locked : List SubAlloc
deriving DecidableEq

/-- `channel.State`: channel ID, version, allocation, app data bytes
(what `s.Data.Encode` writes), final flag. -/
structure ChannelState where
  id : Nat
  version : Nat
  allocation : Allocation
  data : List Nat
  isFinal : Bool
deriving DecidableEq

/-- `channelParamsToEthParams`: the address casts are identities in this
embedding. -/
def channelParamsToEthParams (p : Params) : PerunTypesParams :=
  { ChallengeDuration := p.challengeDuration
    Nonce := p.nonce
    App := p.app
    Participants := p.parts }

/-- `channelStateToEthState`. -/
def channelStateToEthState (s : ChannelState) : PerunTypesState :=
  { ChannelID := s.id
    Version := s.version
    Outcome :=
      { Assets := s.allocation.assets
        Balances := s.allocation.ofParts
        Locked := s.allocation.locked.map (fun sub => ⟨sub.id, sub.bals⟩) }
    AppData := s.data
    IsFinal := s.isFinal }

/-- `encodeParams`: pack `(uint256, uint256, address, address[])`. -/
def encodeParams (params : PerunTypesParams) : List Nat :=
  abiPack
    [ .uint256 params.ChallengeDuration
    , .uint256 params.Nonce
    , .address params.App
    , .addressArr params.Participants ]

/-- `encodeSubAlloc`: pack `(bytes32, uint256[])`. -/
def encodeSubAlloc (sub : PerunTypesSubAlloc) : List Nat :=
  abiPack [ .bytes32 sub.ID, .uint256Arr sub.Balances ]

/-- `encodeAllocation`: pack `(address[], uint256[][], bytes)`, where the
bytes argument is the concatenation of the locked sub-allocation
encodings built by the `for` loop. -/
def encodeAllocation (alloc : PerunTypesAllocation) : List Nat :=
  abiPack
    [ .addressArr alloc.Assets
    , .uint256ArrArr alloc.Balances
    , .bytes (alloc.Locked.flatMap encodeSubAlloc) ]

/-- `encodeState`: pack `(bytes32, uint64, bytes, bytes, bool)` with the
allocation encoding as the first bytes argument. -/
def encodeState (state : PerunTypesState) : List Nat :=
  abiPack
    [ .bytes32 state.ChannelID
    , .uint64 state.Version
    , .bytes (encodeAllocation state.Outcome)
    , .bytes state.AppData
    , .boolean state.IsFinal ]

/-- `Backend.ChannelID`: hash the encoded parameters and `copy` the
digest into a zero-initialized 32-byte array.  The Keccak256 function is
an external collaborator and is passed as a parameter. -/
def ChannelID (keccak : List Nat → List Nat) (p : Params) : List Nat :=
  List.take 32 (keccak (encodeParams (channelParamsToEthParams p)) ++ List.replicate 32 0)

/-- The account capability `acc.SignData`: may fail (e.g. on a locked
account). -/
def SignCap : Type := List Nat → Except String (List Nat)

/-- The `perunwallet.VerifySignature` capability: a boolean result and an
optional error (`none` for a well-formed signature). -/
def VerifyCap : Type := List Nat → List Nat → Nat → Bool × Option String

/-- `Backend.Sign`: nil checks on account, params and state, then the
account capability's signature over the encoded state (the params are
not used beyond the nil check). -/
def Sign (acc : Option SignCap) (p : Option Params) (s : Option ChannelState) :
    Except String (List Nat) :=
  match acc, p, s with
  | some a, some _, some st => a (encodeState (channelStateToEthState st))
  | _, _, _ => .error "Sign called with invalid parameters"

/-- `Backend.Verify`: encode the state and delegate to the verification
capability.  Encoding is total in this embedding, so the error branch of
the Go code is never taken. -/
def Verify (vcap : VerifyCap) (addr : Nat) (p : Params) (s : ChannelState)
    (sig : List Nat) : Bool × Option String :=
  let _ := p
  vcap (encodeState (channelStateToEthState s)) sig addr

/-- Modelled from the spec: the codec the spec's §4.2 describes for the
channel parameters — fixed-width big-endian scalars, fixed-width
identifiers, and the participants list as the bare concatenation of each
element's encoding in list order with no separate length word.  Used
only to compare the spec's description of list encoding with the
source's `encodeParams`. -/
def encodeParamsSpec (params : PerunTypesParams) : List Nat :=
  beBytes 32 params.ChallengeDuration ++ beBytes 32 params.Nonce ++
    beBytes 32 params.App ++ params.Participants.flatMap (beBytes 32)

/-! ## Peer subscription registry (`peer/subscription.go`) -/

/-- The state of one peer's `subscriptions` value: the category map
(`subs`, with absent categories reading as the empty list, as for a Go
map of slices) together with the owning peer's closed flag
(`s.peer.isClosed()`).  Categories and receivers are identified by
naturals; receiver identity is reference equality in Go, so distinct
naturals stand for distinct receiver instances. -/
structure SubState where
  subs : Nat → List Nat
  closed : Bool

/-- Outcome tag of `subscriptions.add`: the `peer closed` error return,
the `duplicate peer subscription` panic, or normal return. -/
inductive AddRes where
  | errClosed
  | panicDup
  | ok
deriving DecidableEq

/-- `subscriptions.add`: check the closed flag, then scan the category's
receiver slice for the same receiver (panic on a hit), then append.  The
returned state is the registry after the call; the error and panic paths
return before any mutation. -/
def subsAdd (st : SubState) (cat r : Nat) : AddRes × SubState :=
  if st.closed then (.errClosed, st)
  else if r ∈ st.subs cat then (.panicDup, st)
  else (.ok, { st with subs := Function.update st.subs cat (st.subs cat ++ [r]) })

/-- The slice surgery of `subscriptions.delete`: overwrite the first
occurrence of `r` with the last element, then drop the last element;
unchanged if `r` is absent. -/
def swapRemove (l : List Nat) (r : Nat) : List Nat :=
  if r ∈ l then (l.set (l.indexOf r) (l.getLastD 0)).dropLast else l

/-- `subscriptions.delete`. -/
def subsDelete (st : SubState) (cat r : Nat) : SubState :=
  { st with subs := Function.update st.subs cat (swapRemove (st.subs cat) r) }

/-- `subscriptions.isEmpty`. -/
def SubState.isEmptyAt (st : SubState) (cat : Nat) : Bool :=
  (st.subs cat).isEmpty

/-- A wire message: its category (`m.Category()`) and an opaque body. -/
structure Msg where
  cat : Nat
  body : Nat
deriving DecidableEq

/-- `subscriptions.put`: the list of deliveries performed by one dispatch,
in slice order — each receiver registered under the message's category
receives the `MsgTuple{p, m}`. -/
def subsPut (st : SubState) (m : Msg) (p : Nat) : List (Nat × Nat × Msg) :=
  (st.subs m.cat).map (fun rec => (rec, p, m))

/-- `makeSubscriptions`: fresh empty registry for an open peer. -/
def makeSubscriptions : SubState :=
  { subs := fun _ => [], closed := false }

/-- One registry operation: a subscribe or unsubscribe call. -/
inductive SubOp where
  | add (cat r : Nat)
  | del (cat r : Nat)
deriving DecidableEq

/-- Apply one operation; a failed or panicking `add` leaves the registry
unchanged (the Go code returns before mutating). -/
def applyOp (st : SubState) (op : SubOp) : SubState :=
  match op with
  | .add c r => (subsAdd st c r).2
  | .del c r => subsDelete st c r

/-- Apply a sequence of operations in order. -/
def applyOps (st : SubState) (ops : List SubOp) : SubState :=
  ops.foldl applyOp st

/-- The registry invariant: no category's receiver slice contains the
same receiver twice. -/
def Invariant (st : SubState) : Prop :=
  ∀ c, (st.subs c).Nodup

/-! ## Funder (spec-modelled) -/

/-- One interaction with the external ledger client: a deposited-amount
query or a deposit transaction, for one asset. -/
inductive LedgerOp where
  | query (asset : Nat)
  | deposit (asset amount : Nat)
deriving DecidableEq

/-- `channel.FundingReq`. -/
structure FundingReq where
  params : Option Params
  allocation : Option Allocation
  idx : Nat

/-- Modelled from the spec: the per-asset loop of `Funder.Fund` (the
Funder implementation is not part of the given sources; only its test
is).  For each asset the participant must deposit (skipping zero
entries), query the ledger's already-deposited amount, treat the asset
as complete if fully deposited, and otherwise deposit the remainder.
Returns the new ledger state (deposited amount per asset index) and the
ledger interactions in order. -/
def fundAssets (ledger : Nat → Nat) (k : Nat) (row : List Nat) :
    (Nat → Nat) × List LedgerOp :=
  match row with
  | [] => (ledger, [])
  | amt :: rest =>
    if amt = 0 then fundAssets ledger (k + 1) rest
    else
      let d := ledger k
      let step : (Nat → Nat) × List LedgerOp :=
        if amt ≤ d then (ledger, [.query k])
        else (Function.update ledger k amt, [.query k, .deposit k (amt - d)])
      let next := fundAssets step.1 (k + 1) rest
      (next.1, step.2 ++ next.2)

/-- Modelled from the spec: `Funder.Fund` (implementation not in the
given sources).  A nil params or allocation is a fatal invariant
violation (`none` result, the panic observed by the test); an empty or
all-zero allocation row for the local participant succeeds immediately
with no ledger interaction; otherwise the per-asset loop runs. -/
def fund (ledger : Nat → Nat) (req : FundingReq) :
    Option ((Nat → Nat) × List LedgerOp) :=
  match req.params, req.allocation with
  | some _, some alloc =>
    let row := alloc.ofParts.getD req.idx []
    if row.all (· = 0) then some (ledger, [])
    else some (fundAssets ledger 0 row)
  | _, _ => none

/-- True when the operation list contains no deposit transaction. -/
def noDeposits (ops : List LedgerOp) : Bool :=
  ops.all fun op => match op with
    | .deposit _ _ => false
    | .query _ => true

/-! ## Concrete collaborator fixtures used by witness instantiations -/

/-- A hash collaborator returning a fixed 32-byte digest. -/
def constDigest : List Nat → List Nat := fun _ => List.replicate 32 0

/-- An account capability that signs by returning the message itself. -/
def echoSigner : SignCap := fun bs => .ok bs

/-- A verification capability that reports a well-formed, non-matching
signature: `(false, nil)`. -/
def alwaysFalseCap : VerifyCap := fun _ _ _ => (false, none)

/-! ## Theorems -/

theorem beBytes_length (w n : Nat) : (beBytes w n).length = w := by
  simp [beBytes]

/-- Claim C1: `ChannelID` is the Keccak256 hash of the canonical byte
encoding of the parameters (whenever the hash collaborator returns a
32-byte digest, the `copy` into the zero-initialized ID array is exact),
and it is pure and deterministic: identical params always yield the same
ID.  The only failure path of the Go code is the panic on an encoding
error, and the embedded encoder is total, so no failure is possible
here. -/
theorem C1_channelID_hash_deterministic (keccak : List Nat → List Nat)
    (p q : Params)
    (h32 : (keccak (encodeParams (channelParamsToEthParams p))).length = 32) :
    ChannelID keccak p = keccak (encodeParams (channelParamsToEthParams p))
      ∧ (p = q → ChannelID keccak p = ChannelID keccak q) := by
  constructor
  · unfold ChannelID
    rw [← h32]
    exact List.take_left _ _
  · intro h
    rw [h]

/-- Witness for C1 at a concrete hash collaborator and concrete params. -/
theorem C1_witness :
    (constDigest (encodeParams (channelParamsToEthParams ⟨1, 2, 3, [4]⟩))).length = 32
      ∧ (ChannelID constDigest ⟨1, 2, 3, [4]⟩
            = constDigest (encodeParams (channelParamsToEthParams ⟨1, 2, 3, [4]⟩))
          ∧ ((⟨1, 2, 3, [4]⟩ : Params) = ⟨1, 2, 3, [4]⟩ →
              ChannelID constDigest ⟨1, 2, 3, [4]⟩ = ChannelID constDigest ⟨1, 2, 3, [4]⟩)) :=
  ⟨by simp [constDigest],
   C1_channelID_hash_deterministic constDigest _ _ (by simp [constDigest])⟩

/-- Claim C2: `Sign` returns the `InvalidArgument`-style error whenever
the account, params or state argument is nil, and with all three present
it returns the account capability's signature over the canonical
encoding of the state. -/
theorem C2_sign_nil_check_then_delegate :
    (∀ (acc : Option SignCap) (p : Option Params) (s : Option ChannelState),
        acc = none ∨ p = none ∨ s = none →
          Sign acc p s = .error "Sign called with invalid parameters")
      ∧ ∀ (a : SignCap) (p : Params) (st : ChannelState),
          Sign (some a) (some p) (some st) = a (encodeState (channelStateToEthState st)) := by
  constructor
  · intro acc p s h
    rcases h with h | h | h
    · subst h; cases p <;> cases s <;> rfl
    · subst h; cases acc <;> cases s <;> rfl
    · subst h; cases acc <;> cases p <;> rfl
  · intro a p st
    rfl

/-- Witness for C2: a nil account is rejected, and a fully supplied call
returns the capability's signature over the encoded state. -/
theorem C2_witness :
    Sign (none : Option SignCap) (some ⟨0, 0, 0, []⟩) (some ⟨0, 0, ⟨[], [], []⟩, [], false⟩)
        = .error "Sign called with invalid parameters"
      ∧ Sign (some echoSigner) (some ⟨0, 0, 0, []⟩) (some ⟨0, 0, ⟨[], [], []⟩, [], false⟩)
        = echoSigner (encodeState (channelStateToEthState ⟨0, 0, ⟨[], [], []⟩, [], false⟩)) :=
  ⟨C2_sign_nil_check_then_delegate.1 none _ _ (Or.inl rfl),
   C2_sign_nil_check_then_delegate.2 echoSigner _ _⟩

/-- Claim C3: whenever the verification capability reports a well-formed
signature (no error), `Verify` returns the capability's boolean verbatim
with a nil error — in particular a mere mismatch yields `(false, nil)`,
never an error.  Encoding is total in this embedding, so the only error
path of the Go code (an encoding failure) cannot fire. -/
theorem C3_verify_mismatch_not_error (vcap : VerifyCap) (addr : Nat) (p : Params)
    (s : ChannelState) (sig : List Nat) (b : Bool)
    (h : vcap (encodeState (channelStateToEthState s)) sig addr = (b, none)) :
    Verify vcap addr p s sig = (b, none) := by
  unfold Verify
  exact h

/-- Witness for C3 at a capability that reports a non-matching
well-formed signature. -/
theorem C3_witness :
    alwaysFalseCap
        (encodeState (channelStateToEthState ⟨0, 0, ⟨[], [], []⟩, [], false⟩)) [] 0
        = (false, none)
      ∧ Verify alwaysFalseCap 0 ⟨0, 0, 0, []⟩ ⟨0, 0, ⟨[], [], []⟩, [], false⟩ []
        = (false, none) :=
  ⟨rfl, C3_verify_mismatch_not_error alwaysFalseCap 0 _ _ [] false rfl⟩

theorem sum_map_length_beBytes (l : List Nat) :
    (l.map (List.length ∘ beBytes 32)).sum = 32 * l.length := by
  induction l with
  | nil => simp
  | cons x xs ih => simp [ih, beBytes_length]; ring

/-- Claim C4 fails on the code: the participants list of a parameter
tuple with one participant is not encoded as the bare concatenation of
element encodings — `encodeParams` (ABI encoding) emits an offset word
and a 32-byte length word for the dynamic array, so its output differs
from the spec's concatenation codec. -/
theorem C4_counterexample :
    encodeParams ⟨1, 2, 3, [4]⟩ ≠ encodeParamsSpec ⟨1, 2, 3, [4]⟩ := by
  decide

/-- Claim C4 (amended): in the canonical encoding, the participants,
assets and balances lists are ABI dynamic arrays — each is reached
through a 32-byte offset word in the head area and is prefixed by a
32-byte length word before the concatenation of its element encodings —
while only the locked sub-allocations list is concatenated element by
element without a length word of its own (the concatenation is then
packed as a length-prefixed ABI bytes argument). -/
theorem C4_amended_list_layout (p : PerunTypesParams) (a : PerunTypesAllocation) :
    (encodeParams p
        = beBytes 32 p.ChallengeDuration ++ beBytes 32 p.Nonce ++ beBytes 32 p.App
          ++ beBytes 32 128 ++ beBytes 32 p.Participants.length
          ++ p.Participants.flatMap (beBytes 32))
      ∧ (encodeAllocation a
          = beBytes 32 96
            ++ beBytes 32 (96 + (32 + 32 * a.Assets.length))
            ++ beBytes 32 (96 + (32 + 32 * a.Assets.length) + (encU256ArrArr a.Balances).length)
            ++ (beBytes 32 a.Assets.length ++ a.Assets.flatMap (beBytes 32))
            ++ encU256ArrArr a.Balances
            ++ (beBytes 32 (a.Locked.flatMap encodeSubAlloc).length
                  ++ padRight32 (a.Locked.flatMap encodeSubAlloc))) := by
  constructor
  · simp [encodeParams, abiPack, abiPackAux, AbiVal.enc, AbiVal.isDyn, List.append_assoc]
  · simp [encodeAllocation, abiPack, abiPackAux, AbiVal.enc, AbiVal.isDyn, List.append_assoc,
      sum_map_length_beBytes, beBytes_length]

/-- Claim C5: `subscriptions.add` on a closed peer returns the
recoverable closed error (leaving the registry untouched), and on an
open peer with the exact pair already registered it takes the panic
path, not a normal error return. -/
theorem C5_add_closed_error_dup_panic (st : SubState) (c r : Nat) :
    (st.closed = true → subsAdd st c r = (.errClosed, st))
      ∧ (st.closed = false → r ∈ st.subs c → (subsAdd st c r).1 = .panicDup) := by
  constructor
  · intro h
    simp [subsAdd, h]
  · intro h hmem
    simp [subsAdd, h, hmem]

/-- Witness for C5: a closed peer rejects the subscription, and an open
peer with a duplicate pair panics. -/
theorem C5_witness :
    subsAdd ⟨fun _ => [5], true⟩ 0 5 = (.errClosed, ⟨fun _ => [5], true⟩)
      ∧ (subsAdd ⟨fun _ => [5], false⟩ 0 5).1 = .panicDup :=
  ⟨(C5_add_closed_error_dup_panic ⟨fun _ => [5], true⟩ 0 5).1 rfl,
   (C5_add_closed_error_dup_panic ⟨fun _ => [5], false⟩ 0 5).2 rfl (by simp)⟩

/-- Claim C10: the closed-peer check precedes the duplicate-pair check:
on a closed peer, `add` returns the closed error and leaves the registry
unchanged even when the pair is already registered. -/
theorem C10_closed_check_first (st : SubState) (c r : Nat)
    (hclosed : st.closed = true) (_hdup : r ∈ st.subs c) :
    subsAdd st c r = (.errClosed, st) := by
  simp [subsAdd, hclosed]

/-- Witness for C10 at a closed registry already holding the pair. -/
theorem C10_witness :
    (7 ∈ (⟨fun _ => [7], true⟩ : SubState).subs 2)
      ∧ subsAdd ⟨fun _ => [7], true⟩ 2 7 = (.errClosed, ⟨fun _ => [7], true⟩) :=
  ⟨by simp, C10_closed_check_first ⟨fun _ => [7], true⟩ 2 7 rfl (by simp)⟩

/-- Claim C9: a funding request with non-nil params and allocation whose
row for the local participant is empty or all-zero succeeds immediately
with no ledger interaction and an unchanged ledger. -/
theorem C9_zero_allocation_noop (ledger : Nat → Nat) (req : FundingReq)
    (pa : Params) (al : Allocation)
    (hp : req.params = some pa) (ha : req.allocation = some al)
    (hz : (al.ofParts.getD req.idx []).all (· = 0) = true) :
    fund ledger req = some (ledger, []) := by
  rcases req with ⟨params, alloc, idx⟩
  cases hp
  cases ha
  simp only [fund, hz, if_true]

/-- Witness for C9 on a request whose participant row is all zeros. -/
theorem C9_witness :
    ((([[0, 0]] : List (List Nat)).getD 0 []).all (· = 0) = true)
      ∧ fund (fun _ => 0) ⟨some ⟨0, 0, 0, []⟩, some ⟨[], [[0, 0]], []⟩, 0⟩
          = some (fun _ => 0, []) :=
  ⟨by decide,
   C9_zero_allocation_noop (fun _ => 0) _ ⟨0, 0, 0, []⟩ ⟨[], [[0, 0]], []⟩ rfl rfl (by decide)⟩

/-! ### Lemmas about the slice surgery of `subscriptions.delete` -/

theorem getLastD_eq_getLast (l : List Nat) (h : l ≠ []) (d : Nat) :
    l.getLastD d = l.getLast h := by
  simp [List.getLastD_eq_getLast?, List.getLast?_eq_getLast l h]

theorem swapRemove_of_not_mem {l : List Nat} {r : Nat} (h : r ∉ l) :
    swapRemove l r = l := by
  simp [swapRemove, h]

theorem swapRemove_cons_self (r : Nat) (l : List Nat) :
    swapRemove (r :: l) r = ((r :: l).getLastD 0 :: l).dropLast := by
  simp [swapRemove, List.indexOf_cons_self]

theorem swapRemove_singleton (r : Nat) : swapRemove [r] r = [] := by
  rw [swapRemove_cons_self]
  rfl

theorem swapRemove_cons_self_of_ne_nil (r : Nat) (l : List Nat) (hl : l ≠ []) :
    swapRemove (r :: l) r = l.getLast hl :: l.dropLast := by
  rw [swapRemove_cons_self, List.getLastD_cons, getLastD_eq_getLast l hl r]
  exact List.dropLast_cons_of_ne_nil hl

theorem swapRemove_cons_of_ne (x r : Nat) (l : List Nat) (hx : x ≠ r) (hr : r ∈ l) :
    swapRemove (x :: l) r = x :: swapRemove l r := by
  have hl : l ≠ [] := by rintro rfl; simp at hr
  simp only [swapRemove, List.mem_cons, hr, or_true, if_true, if_pos hr]
  rw [List.indexOf_cons_ne _ (by simpa using hx)]
  have hset : (x :: l).set (l.indexOf r + 1) ((x :: l).getLastD 0)
      = x :: l.set (l.indexOf r) ((x :: l).getLastD 0) := rfl
  rw [hset]
  have hlast : (x :: l).getLastD 0 = l.getLastD 0 := by
    rw [List.getLastD_cons, getLastD_eq_getLast l hl x, getLastD_eq_getLast l hl 0]
  rw [hlast]
  have hne : l.set (l.indexOf r) (l.getLastD 0) ≠ [] := by
    intro hcon
    have := congrArg List.length hcon
    simp at this
    exact hl this
  exact List.dropLast_cons_of_ne_nil hne

theorem mem_of_mem_swapRemove {l : List Nat} {r y : Nat} (h : y ∈ swapRemove l r) :
    y ∈ l := by
  induction l with
  | nil => simp [swapRemove] at h
  | cons x xs ih =>
    by_cases hr : r ∈ x :: xs
    · by_cases hx : x = r
      · subst hx
        rcases eq_or_ne xs [] with hnil | hnil
        · subst hnil
          rw [swapRemove_singleton] at h
          simp at h
        · rw [swapRemove_cons_self_of_ne_nil x xs hnil] at h
          rcases List.mem_cons.mp h with h | h
          · exact List.mem_cons_of_mem _ (h ▸ List.getLast_mem hnil)
          · exact List.mem_cons_of_mem _ (List.dropLast_subset xs h)
      · have hrxs : r ∈ xs := by
          rcases List.mem_cons.mp hr with h2 | h2
          · exact absurd h2.symm hx
          · exact h2
        rw [swapRemove_cons_of_ne x r xs hx hrxs] at h
        rcases List.mem_cons.mp h with h | h
        · exact h ▸ List.mem_cons_self x xs
        · exact List.mem_cons_of_mem _ (ih h)
    · rwa [swapRemove_of_not_mem hr] at h

theorem nodup_swapRemove {l : List Nat} (r : Nat) (h : l.Nodup) :
    (swapRemove l r).Nodup := by
  induction l with
  | nil => simp [swapRemove]
  | cons x xs ih =>
    rcases List.nodup_cons.mp h with ⟨hxmem, hnd⟩
    by_cases hr : r ∈ x :: xs
    · by_cases hx : x = r
      · subst hx
        rcases eq_or_ne xs [] with hnil | hnil
        · subst hnil
          rw [swapRemove_singleton]
          exact List.nodup_nil
        · rw [swapRemove_cons_self_of_ne_nil x xs hnil]
          have hdecomp : xs.dropLast ++ [xs.getLast hnil] = xs :=
            List.dropLast_append_getLast hnil
          have h1 : (xs.dropLast ++ [xs.getLast hnil]).Nodup := by
            rw [hdecomp]; exact hnd
          have h2 : ([xs.getLast hnil] ++ xs.dropLast).Nodup :=
            List.nodup_append_comm.mp h1
          simpa using h2
      · have hrxs : r ∈ xs := by
          rcases List.mem_cons.mp hr with h2 | h2
          · exact absurd h2.symm hx
          · exact h2
        rw [swapRemove_cons_of_ne x r xs hx hrxs]
        exact List.nodup_cons.mpr ⟨fun hmem => hxmem (mem_of_mem_swapRemove hmem), ih hnd⟩
    · rwa [swapRemove_of_not_mem hr]

theorem not_mem_swapRemove_self {l : List Nat} (r : Nat) (h : l.Nodup) :
    r ∉ swapRemove l r := by
  induction l with
  | nil => simp [swapRemove]
  | cons x xs ih =>
    rcases List.nodup_cons.mp h with ⟨hxmem, hnd⟩
    by_cases hx : x = r
    · subst hx
      rcases eq_or_ne xs [] with hnil | hnil
      · subst hnil
        rw [swapRemove_singleton]
        simp
      · rw [swapRemove_cons_self_of_ne_nil x xs hnil]
        intro hmem
        rcases List.mem_cons.mp hmem with h2 | h2
        · exact hxmem (h2 ▸ List.getLast_mem hnil)
        · exact hxmem (List.dropLast_subset xs h2)
    · by_cases hr : r ∈ xs
      · rw [swapRemove_cons_of_ne x r xs hx hr]
        intro hmem
        rcases List.mem_cons.mp hmem with h2 | h2
        · exact hx h2.symm
        · exact ih hnd h2
      · have hrx : r ∉ x :: xs := by
          intro hmem
          rcases List.mem_cons.mp hmem with h2 | h2
          · exact hx h2.symm
          · exact hr h2
        rw [swapRemove_of_not_mem hrx]
        exact hrx

theorem mem_swapRemove_of_ne {l : List Nat} {r y : Nat} (hy : y ∈ l) (hne : y ≠ r) :
    y ∈ swapRemove l r := by
  induction l with
  | nil => simp at hy
  | cons x xs ih =>
    by_cases hr : r ∈ x :: xs
    · by_cases hx : x = r
      · subst hx
        have hyxs : y ∈ xs := by
          rcases List.mem_cons.mp hy with h2 | h2
          · exact absurd h2 hne
          · exact h2
        have hnil : xs ≠ [] := by rintro rfl; simp at hyxs
        rw [swapRemove_cons_self_of_ne_nil x xs hnil]
        have hdecomp : xs.dropLast ++ [xs.getLast hnil] = xs :=
          List.dropLast_append_getLast hnil
        have hyd : y ∈ xs.dropLast ++ [xs.getLast hnil] := by
          rw [hdecomp]; exact hyxs
        rcases List.mem_append.mp hyd with h2 | h2
        · exact List.mem_cons_of_mem _ h2
        · simp at h2
          exact h2 ▸ List.mem_cons_self _ _
      · have hrxs : r ∈ xs := by
          rcases List.mem_cons.mp hr with h2 | h2
          · exact absurd h2.symm hx
          · exact h2
        rw [swapRemove_cons_of_ne x r xs hx hrxs]
        rcases List.mem_cons.mp hy with h2 | h2
        · exact h2 ▸ List.mem_cons_self _ _
        · exact List.mem_cons_of_mem _ (ih h2)
    · rwa [swapRemove_of_not_mem hr]

/-! ### Registry invariant preservation -/

theorem nodup_append_singleton {l : List Nat} {r : Nat} (hnd : l.Nodup) (hr : r ∉ l) :
    (l ++ [r]).Nodup := by
  have h1 : ([r] ++ l).Nodup := by simpa using List.nodup_cons.mpr ⟨hr, hnd⟩
  exact List.nodup_append_comm.mp h1

theorem invariant_applyOp (st : SubState) (op : SubOp) (h : Invariant st) :
    Invariant (applyOp st op) := by
  cases op with
  | add c r =>
    show Invariant (subsAdd st c r).2
    by_cases hc : st.closed
    · simpa [subsAdd, hc] using h
    · by_cases hm : r ∈ st.subs c
      · simpa [subsAdd, hc, hm] using h
      · simp only [subsAdd, hc, hm, if_false, Bool.false_eq_true, ite_false]
        intro c2
        by_cases hcc : c2 = c
        · subst hcc
          simpa [Function.update_same] using nodup_append_singleton (h c2) hm
        · simpa [Function.update_noteq hcc] using h c2
  | del c r =>
    show Invariant (subsDelete st c r)
    intro c2
    by_cases hcc : c2 = c
    · subst hcc
      simpa [subsDelete, Function.update_same] using nodup_swapRemove r (h c2)
    · simpa [subsDelete, Function.update_noteq hcc] using h c2

theorem invariant_applyOps (st : SubState) (ops : List SubOp) (h : Invariant st) :
    Invariant (applyOps st ops) := by
  induction ops generalizing st with
  | nil => exact h
  | cons op rest ih => exact ih _ (invariant_applyOp st op h)

theorem mem_subs_applyOp (st : SubState) (op : SubOp) (c r : Nat)
    (hop : op ≠ SubOp.del c r) (hm : r ∈ st.subs c) :
    r ∈ (applyOp st op).subs c := by
  cases op with
  | add c2 r2 =>
    show r ∈ (subsAdd st c2 r2).2.subs c
    by_cases hc : st.closed
    · simpa [subsAdd, hc] using hm
    · by_cases hm2 : r2 ∈ st.subs c2
      · simpa [subsAdd, hc, hm2] using hm
      · simp only [subsAdd, hc, hm2, if_false, Bool.false_eq_true, ite_false]
        by_cases hcc : c = c2
        · subst hcc
          simp [Function.update_same]
          exact Or.inl hm
        · simpa [Function.update_noteq hcc] using hm
  | del c2 r2 =>
    show r ∈ (subsDelete st c2 r2).subs c
    by_cases hcc : c = c2
    · subst hcc
      have hrr : r ≠ r2 := by
        intro he
        exact hop (by rw [he])
      simp only [subsDelete, Function.update_same]
      exact mem_swapRemove_of_ne hm hrr
    · simpa [subsDelete, Function.update_noteq hcc] using hm

theorem invariant_mem_applyOps (st : SubState) (c r : Nat) (ops : List SubOp)
    (hinv : Invariant st) (hmem : r ∈ st.subs c)
    (hops : ∀ op ∈ ops, op ≠ SubOp.del c r) :
    Invariant (applyOps st ops) ∧ r ∈ (applyOps st ops).subs c := by
  induction ops generalizing st with
  | nil => exact ⟨hinv, hmem⟩
  | cons op rest ih =>
    exact ih (applyOp st op) (invariant_applyOp st op hinv)
      (mem_subs_applyOp st op c r (hops op (List.mem_cons_self _ _)) hmem)
      (fun o ho => hops o (List.mem_cons_of_mem _ ho))

theorem count_map_pair (l : List Nat) (p : Nat) (m : Msg) (r : Nat) :
    (l.map (fun rec => (rec, p, m))).count (r, p, m) = l.count r := by
  induction l with
  | nil => rfl
  | cons x xs ih =>
    simp only [List.map_cons, List.count_cons, ih, Prod.mk.injEq]
    by_cases hx : x = r
    · simp [hx]
    · simp [hx]

/-- Claim C6: starting from the empty registry, every sequence of
subscribe and unsubscribe operations preserves the invariant that no
category's receiver slice contains the same receiver twice. -/
theorem C6_registry_invariant (ops : List SubOp) :
    Invariant (applyOps makeSubscriptions ops) :=
  invariant_applyOps makeSubscriptions ops (fun _ => List.nodup_nil)

/-- Claim C7: after a successful `subscribe(c, r)` and any further
operations not containing `unsubscribe(c, r)`, a dispatch of a message
of category `c` delivers exactly one copy of the `(sourcePeer, msg)`
tuple to `r`, and delivers to every receiver currently registered under
that category; after `unsubscribe(c, r)`, a dispatch in `c` makes no
delivery to `r`. -/
theorem C7_dispatch_delivery (st : SubState) (c r : Nat)
    (hinv : Invariant st) (st2 : SubState)
    (hadd : subsAdd st c r = (.ok, st2))
    (ops : List SubOp) (hops : ∀ op ∈ ops, op ≠ SubOp.del c r)
    (p body : Nat) :
    ((subsPut (applyOps st2 ops) ⟨c, body⟩ p).count (r, p, ⟨c, body⟩) = 1)
      ∧ (∀ x ∈ (applyOps st2 ops).subs c,
          (x, p, (⟨c, body⟩ : Msg)) ∈ subsPut (applyOps st2 ops) ⟨c, body⟩ p)
      ∧ (subsPut (subsDelete (applyOps st2 ops) c r) ⟨c, body⟩ p).count
          (r, p, ⟨c, body⟩) = 0 := by
  have hst2 : st2 = (subsAdd st c r).2 := by rw [hadd]
  have hinv2 : Invariant st2 := by
    rw [hst2]
    exact invariant_applyOp st (.add c r) hinv
  have hmem2 : r ∈ st2.subs c := by
    rw [hst2]
    unfold subsAdd at hadd ⊢
    by_cases hc : st.closed
    · simp [hc] at hadd
    · by_cases hm : r ∈ st.subs c
      · simp [hc, hm] at hadd
      · simp [hc, hm, Function.update_same]
  obtain ⟨hinvF, hmemF⟩ := invariant_mem_applyOps st2 c r ops hinv2 hmem2 hops
  refine ⟨?_, ?_, ?_⟩
  · show ((((applyOps st2 ops).subs c).map _).count _ = 1)
    rw [count_map_pair]
    exact List.count_eq_one_of_mem (hinvF c) hmemF
  · intro x hx
    exact List.mem_map_of_mem _ hx
  · show ((((subsDelete (applyOps st2 ops) c r).subs c).map _).count _ = 0)
    rw [count_map_pair]
    refine List.count_eq_zero.mpr ?_
    simp only [subsDelete, Function.update_same]
    exact not_mem_swapRemove_self r (hinvF c)

/-- Witness for C7: subscribing receiver 5 to category 0 on a fresh
registry, then dispatching, delivering, and unsubscribing. -/
theorem C7_witness :
    Invariant makeSubscriptions
      ∧ (∀ op ∈ ([] : List SubOp), op ≠ SubOp.del 0 5)
      ∧ (((subsPut (applyOps (subsAdd makeSubscriptions 0 5).2 []) ⟨0, 2⟩ 1).count
            (5, 1, ⟨0, 2⟩) = 1)
          ∧ (∀ x ∈ (applyOps (subsAdd makeSubscriptions 0 5).2 []).subs 0,
              (x, 1, (⟨0, 2⟩ : Msg))
                ∈ subsPut (applyOps (subsAdd makeSubscriptions 0 5).2 []) ⟨0, 2⟩ 1)
          ∧ (subsPut (subsDelete (applyOps (subsAdd makeSubscriptions 0 5).2 []) 0 5)
                ⟨0, 2⟩ 1).count (5, 1, ⟨0, 2⟩) = 0) :=
  ⟨fun _ => List.nodup_nil, by simp,
   C7_dispatch_delivery makeSubscriptions 0 5 (fun _ => List.nodup_nil) _ rfl [] (by simp) 1 2⟩

/-! ### Funder lemmas -/

theorem fundAssets_apply_lt (row : List Nat) (k : Nat) (ledger : Nat → Nat) (j : Nat)
    (hj : j < k) : (fundAssets ledger k row).1 j = ledger j := by
  induction row generalizing k ledger with
  | nil => rfl
  | cons amt rest ih =>
    by_cases hz : amt = 0
    · simp only [fundAssets, hz, if_true]
      exact ih (k + 1) ledger (Nat.lt_succ_of_lt hj)
    · by_cases hle : amt ≤ ledger k
      · simp only [fundAssets, hz, hle, if_true, if_false]
        exact ih (k + 1) ledger (Nat.lt_succ_of_lt hj)
      · simp only [fundAssets, hz, hle, if_false]
        rw [ih (k + 1) _ (Nat.lt_succ_of_lt hj)]
        exact Function.update_noteq (Nat.ne_of_lt hj) _ _

theorem fundAssets_covers (row : List Nat) (k : Nat) (ledger : Nat → Nat)
    (i : Nat) (hi : i < row.length) :
    row.get ⟨i, hi⟩ ≤ (fundAssets ledger k row).1 (k + i) := by
  induction row generalizing k ledger i with
  | nil => simp at hi
  | cons amt rest ih =>
    cases i with
    | zero =>
      by_cases hz : amt = 0
      · simp [hz]
      · by_cases hle : amt ≤ ledger k
        · simp only [fundAssets, hz, hle, if_true, if_false, List.get]
          show amt ≤ (fundAssets ledger (k + 1) rest).1 k
          rw [fundAssets_apply_lt rest (k + 1) ledger k (Nat.lt_succ_self k)]
          exact hle
        · simp only [fundAssets, hz, hle, if_false, List.get]
          show amt ≤ (fundAssets (Function.update ledger k amt) (k + 1) rest).1 k
          rw [fundAssets_apply_lt rest (k + 1) _ k (Nat.lt_succ_self k)]
          rw [Function.update_same]
    | succ i2 =>
      have hi2 : i2 < rest.length := Nat.lt_of_succ_lt_succ hi
      have hadd : k + (i2 + 1) = (k + 1) + i2 := by omega
      by_cases hz : amt = 0
      · simp only [fundAssets, hz, if_true, List.get]
        rw [hadd]
        exact ih (k + 1) ledger i2 hi2
      · by_cases hle : amt ≤ ledger k
        · simp only [fundAssets, hz, hle, if_true, if_false, List.get]
          rw [hadd]
          exact ih (k + 1) ledger i2 hi2
        · simp only [fundAssets, hz, hle, if_false, List.get]
          rw [hadd]
          exact ih (k + 1) _ i2 hi2

theorem fundAssets_no_change (row : List Nat) (k : Nat) (ledger : Nat → Nat)
    (h : ∀ i (hi : i < row.length), row.get ⟨i, hi⟩ ≤ ledger (k + i)) :
    (fundAssets ledger k row).1 = ledger := by
  induction row generalizing k with
  | nil => rfl
  | cons amt rest ih =>
    have hrest : ∀ i (hi : i < rest.length), rest.get ⟨i, hi⟩ ≤ ledger ((k + 1) + i) := by
      intro i hi
      have h2 := h (i + 1) (Nat.succ_lt_succ hi)
      have heq : k + (i + 1) = (k + 1) + i := by omega
      rw [heq] at h2
      exact h2
    by_cases hz : amt = 0
    · simp only [fundAssets, hz, if_true]
      exact ih (k + 1) hrest
    · have hle : amt ≤ ledger k := h 0 (Nat.succ_pos _)
      simp only [fundAssets, hz, hle, if_true, if_false]
      exact ih (k + 1) hrest

theorem fundAssets_queries_only (row : List Nat) (k : Nat) (ledger : Nat → Nat)
    (h : ∀ i (hi : i < row.length), row.get ⟨i, hi⟩ ≤ ledger (k + i)) :
    noDeposits (fundAssets ledger k row).2 = true := by
  induction row generalizing k with
  | nil => rfl
  | cons amt rest ih =>
    have hrest : ∀ i (hi : i < rest.length), rest.get ⟨i, hi⟩ ≤ ledger ((k + 1) + i) := by
      intro i hi
      have h2 := h (i + 1) (Nat.succ_lt_succ hi)
      have heq : k + (i + 1) = (k + 1) + i := by omega
      rw [heq] at h2
      exact h2
    by_cases hz : amt = 0
    · simp only [fundAssets, hz, if_true]
      exact ih (k + 1) hrest
    · have hle : amt ≤ ledger k := h 0 (Nat.succ_pos _)
      simp only [fundAssets, hz, hle, if_true, if_false]
      have hnext := ih (k + 1) hrest
      simp only [noDeposits, List.all_append, List.all_cons, List.all_nil,
        Bool.and_eq_true] at hnext ⊢
      simp [hnext]

/-- Claim C8: `fund` is idempotent — after one successful call, a second
call with the identical request succeeds, leaves the ledger's deposited
amounts exactly as they were (so no asset exceeds the request's
allocation), and submits no deposit transaction. -/
theorem C8_fund_idempotent (ledger : Nat → Nat) (req : FundingReq)
    (l1 : Nat → Nat) (ops1 : List LedgerOp)
    (h : fund ledger req = some (l1, ops1)) :
    ∃ ops2, fund l1 req = some (l1, ops2) ∧ noDeposits ops2 = true := by
  rcases req with ⟨params, alloc, idx⟩
  cases params with
  | none => simp [fund] at h
  | some pa =>
    cases alloc with
    | none => simp [fund] at h
    | some al =>
      simp only [fund] at h ⊢
      by_cases hz : ((al.ofParts.getD idx []).all (· = 0)) = true
      · rw [if_pos hz] at h ⊢
        obtain ⟨hl, _⟩ := Prod.mk.injEq .. ▸ Option.some.inj h
        exact ⟨[], by rw [← hl], rfl⟩
      · rw [if_neg hz] at h ⊢
        have hl1 : l1 = (fundAssets ledger 0 (al.ofParts.getD idx [])).1 :=
          (congrArg Prod.fst (Option.some.inj h)).symm
        have hcov : ∀ i (hi : i < (al.ofParts.getD idx []).length),
            (al.ofParts.getD idx []).get ⟨i, hi⟩ ≤ l1 (0 + i) := by
          intro i hi
          rw [hl1]
          exact fundAssets_covers (al.ofParts.getD idx []) 0 ledger i hi
        refine ⟨(fundAssets l1 0 (al.ofParts.getD idx [])).2, ?_, ?_⟩
        · have hnc := fundAssets_no_change (al.ofParts.getD idx []) 0 l1 hcov
          exact congrArg some (Prod.ext_iff.mpr ⟨hnc, rfl⟩)
        · exact fundAssets_queries_only (al.ofParts.getD idx []) 0 l1 hcov

/-- Witness for C8: funding `[100, 0, 7]` from an empty ledger, then
funding again with the identical request. -/
theorem C8_witness :
    ∃ ops2,
      fund (fundAssets (fun _ => 0) 0 [100, 0, 7]).1
          ⟨some ⟨0, 0, 0, []⟩, some ⟨[], [[100, 0, 7]], []⟩, 0⟩
        = some ((fundAssets (fun _ => 0) 0 [100, 0, 7]).1, ops2)
      ∧ noDeposits ops2 = true :=
  C8_fund_idempotent (fun _ => 0) ⟨some ⟨0, 0, 0, []⟩, some ⟨[], [[100, 0, 7]], []⟩, 0⟩
    (fundAssets (fun _ => 0) 0 [100, 0, 7]).1 (fundAssets (fun _ => 0) 0 [100, 0, 7]).2 rfl

end Perun
